import Mathlib

/-!
Shallow embedding of the market-signal engine of the stock-signal bot
(`src/main.py`) and proofs of the stated behavioural properties.

Python floats are modelled as exact rationals (`ℚ`); Python `Optional`
values as `Option`; the upstream HTTP interaction of `yf_chart` as an
explicit reply value consumed per invocation.
-/

namespace StockBot

/-- The positive part of a price change, as accumulated into `gains` by
`rsi14` (`chg if chg > 0 else 0.0`). -/
def gainPart (c : ℚ) : ℚ := if 0 < c then c else 0

/-- The negative part of a price change, as accumulated into `losses` by
`rsi14` (`-chg if chg < 0 else 0.0`). -/
def lossPart (c : ℚ) : ℚ := if c < 0 then -c else 0

/-- Consecutive differences of a price series: `changes l` lists
`l[i+1] - l[i]` for each adjacent pair, mirroring the loop
`chg = vals[i] - vals[i-1]` of `rsi14`. -/
def changes : List ℚ → List ℚ
  | a :: b :: rest => (b - a) :: changes (b :: rest)
  | _ => []

/-- Sum of the positive changes, the `gains` accumulator of `rsi14`. -/
def gainsOf (chgs : List ℚ) : ℚ := (chgs.map gainPart).sum

/-- Sum of the magnitudes of the negative changes, the `losses`
accumulator of `rsi14`. -/
def lossesOf (chgs : List ℚ) : ℚ := (chgs.map lossPart).sum

/-- The final arithmetic of `rsi14`: `100.0` when `losses == 0`, else
`100.0 - 100.0 / (1.0 + rs)` with `rs = (gains/14.0) / (losses/14.0)`. -/
def rsiFrom (gains losses : ℚ) : ℚ :=
  if losses = 0 then 100 else 100 - 100 / (1 + (gains / 14) / (losses / 14))

/-- `rsi14` from `src/main.py`: `None` on fewer than 15 observations,
otherwise Wilder-style RSI over the changes of the last 15 closes
(indices `-15 .. -1`). -/
def rsi14 (vals : List ℚ) : Option ℚ :=
  if vals.length < 15 then none
  else
    let window := vals.drop (vals.length - 15)
    let chgs := changes window
    some (rsiFrom (gainsOf chgs) (lossesOf chgs))

/-- `sma` from `src/main.py`: `None` when fewer than `n` values,
otherwise the mean of the last `n` values (`sum(vals[-n:]) / n`). -/
def sma (vals : List ℚ) (n : ℕ) : Option ℚ :=
  if vals.length < n then none
  else some ((vals.drop (vals.length - n)).sum / (n : ℚ))

/-- `pct` from `src/main.py`: `None` when the base is zero, otherwise the
percent change `(a - b) / b * 100.0`. -/
def pct (a b : ℚ) : Option ℚ :=
  if b = 0 then none else some ((a - b) / b * 100)

/-- Python's `x or default` applied to an `Optional[float]`: the default is
used when `x` is `None` or when `x` is the falsy float `0.0`. This models
the call-site idiom `rsi14(closes) or 50` and `(sm50 or closes[-1])` of
`src/main.py`. -/
def pyOr (o : Option ℚ) (d : ℚ) : ℚ :=
  match o with
  | none => d
  | some x => if x = 0 then d else x

/- Basic facts about the RSI building blocks. -/

theorem gainPart_nonneg (c : ℚ) : 0 ≤ gainPart c := by
  unfold gainPart; split
  · linarith
  · linarith

theorem lossPart_nonneg (c : ℚ) : 0 ≤ lossPart c := by
  unfold lossPart; split
  · linarith
  · linarith

theorem gainsOf_nonneg (chgs : List ℚ) : 0 ≤ gainsOf chgs := by
  unfold gainsOf
  refine List.sum_nonneg ?_
  intro x hx
  obtain ⟨c, _, rfl⟩ := List.mem_map.mp hx
  exact gainPart_nonneg c

theorem lossesOf_nonneg (chgs : List ℚ) : 0 ≤ lossesOf chgs := by
  unfold lossesOf
  refine List.sum_nonneg ?_
  intro x hx
  obtain ⟨c, _, rfl⟩ := List.mem_map.mp hx
  exact lossPart_nonneg c

theorem rsiFrom_nonneg (g l : ℚ) (hg : 0 ≤ g) (hl : 0 ≤ l) :
    0 ≤ rsiFrom g l := by
  unfold rsiFrom
  split
  · norm_num
  · rename_i hne
    have hlpos : 0 < l := lt_of_le_of_ne hl (Ne.symm hne)
    have hq : (g / 14) / (l / 14) = g / l := by
      field_simp
    rw [hq]
    have h1 : (0 : ℚ) ≤ g / l := div_nonneg hg hl
    have h2 : (0 : ℚ) < 1 + g / l := by linarith
    have h3 : 100 / (1 + g / l) ≤ 100 := by
      rw [div_le_iff₀ h2]
      nlinarith
    linarith

theorem rsiFrom_le_100 (g l : ℚ) (hg : 0 ≤ g) (hl : 0 ≤ l) :
    rsiFrom g l ≤ 100 := by
  unfold rsiFrom
  split
  · norm_num
  · rename_i hne
    have hlpos : 0 < l := lt_of_le_of_ne hl (Ne.symm hne)
    have hq : (g / 14) / (l / 14) = g / l := by
      field_simp
    rw [hq]
    have h1 : (0 : ℚ) ≤ g / l := div_nonneg hg hl
    have h2 : (0 : ℚ) < 1 + g / l := by linarith
    have h3 : 0 < 100 / (1 + g / l) := by positivity
    linarith

theorem changes_length (l : List ℚ) : (changes l).length = l.length - 1 := by
  induction l with
  | nil => simp [changes]
  | cons a rest ih =>
    cases rest with
    | nil => simp [changes]
    | cons b rest2 =>
      simp only [changes, List.length_cons] at *
      omega

/-- C1: For every list of closing prices with at least 15 elements, `rsi14`
returns a value `r` with `0 ≤ r ≤ 100`; if every one of the last 14
consecutive changes is a gain the result is exactly `100`, and if every
one is a loss the result is exactly `0` (the no-losses case takes the
early `return 100.0` branch, so no division is performed). -/
theorem rsi14_bounds_and_extremes (vals : List ℚ) (h : 15 ≤ vals.length) :
    ∃ r, rsi14 vals = some r ∧ 0 ≤ r ∧ r ≤ 100 ∧
      ((∀ c ∈ changes (vals.drop (vals.length - 15)), 0 < c) → r = 100) ∧
      ((∀ c ∈ changes (vals.drop (vals.length - 15)), c < 0) → r = 0) := by
  have hnot : ¬ vals.length < 15 := by omega
  refine ⟨rsiFrom (gainsOf (changes (vals.drop (vals.length - 15))))
      (lossesOf (changes (vals.drop (vals.length - 15)))), ?_, ?_, ?_, ?_, ?_⟩
  · simp [rsi14, hnot]
  · exact rsiFrom_nonneg _ _ (gainsOf_nonneg _) (lossesOf_nonneg _)
  · exact rsiFrom_le_100 _ _ (gainsOf_nonneg _) (lossesOf_nonneg _)
  · intro hall
    have hzero : lossesOf (changes (vals.drop (vals.length - 15))) = 0 := by
      unfold lossesOf
      refine List.sum_eq_zero ?_
      intro x hx
      obtain ⟨c, hc, rfl⟩ := List.mem_map.mp hx
      have := hall c hc
      unfold lossPart
      split <;> [linarith; rfl]
    rw [hzero]
    unfold rsiFrom
    simp
  · intro hall
    have hg : gainsOf (changes (vals.drop (vals.length - 15))) = 0 := by
      unfold gainsOf
      refine List.sum_eq_zero ?_
      intro x hx
      obtain ⟨c, hc, rfl⟩ := List.mem_map.mp hx
      have := hall c hc
      unfold gainPart
      split <;> [linarith; rfl]
    have hlen : (changes (vals.drop (vals.length - 15))).length = 14 := by
      rw [changes_length, List.length_drop]
      omega
    have hne : changes (vals.drop (vals.length - 15)) ≠ [] := by
      intro hnil; rw [hnil] at hlen; simp at hlen
    obtain ⟨c0, hc0⟩ := List.exists_mem_of_ne_nil _ hne
    have hc0neg : c0 < 0 := hall c0 hc0
    have hlpos : 0 < lossesOf (changes (vals.drop (vals.length - 15))) := by
      unfold lossesOf
      have hmem : lossPart c0 ∈
          (changes (vals.drop (vals.length - 15))).map lossPart :=
        List.mem_map.mpr ⟨c0, hc0, rfl⟩
      have hpos : 0 < lossPart c0 := by
        unfold lossPart; split <;> [linarith; linarith]
      calc 0 < lossPart c0 := hpos
        _ ≤ ((changes (vals.drop (vals.length - 15))).map lossPart).sum := by
            refine List.single_le_sum ?_ _ hmem
            intro x hx
            obtain ⟨c, _, rfl⟩ := List.mem_map.mp hx
            exact lossPart_nonneg c
    rw [hg]
    unfold rsiFrom
    have hlne : lossesOf (changes (vals.drop (vals.length - 15))) ≠ 0 :=
      ne_of_gt hlpos
    simp only [hlne, if_false]
    rw [zero_div, zero_div]
    norm_num

/-- C1 witness: a strictly increasing 15-element series has RSI exactly 100,
within bounds. -/
theorem rsi14_bounds_and_extremes_witness :
    ∃ r, rsi14 ((List.range 15).map (fun i => (i : ℚ))) = some r ∧
      0 ≤ r ∧ r ≤ 100 ∧
      ((∀ c ∈ changes (((List.range 15).map (fun i => (i : ℚ))).drop
          (((List.range 15).map (fun i => (i : ℚ))).length - 15)), 0 < c) → r = 100) ∧
      ((∀ c ∈ changes (((List.range 15).map (fun i => (i : ℚ))).drop
          (((List.range 15).map (fun i => (i : ℚ))).length - 15)), c < 0) → r = 0) :=
  rsi14_bounds_and_extremes ((List.range 15).map (fun i => (i : ℚ))) (by decide)

/-- C5 counterexample: on a 14-element series (shorter than the warm-up
window) `rsi14` does not return the placeholder `50`; it returns `None`. -/
theorem rsi14_short_counterexample :
    rsi14 (List.replicate 14 (1 : ℚ)) ≠ some 50 ∧
    rsi14 (List.replicate 14 (1 : ℚ)) = none := by
  refine ⟨?_, ?_⟩ <;> simp [rsi14]

/-- C5 amended: for every series shorter than 15 observations `rsi14`
returns `None`, and the call sites substitute the neutral value through
the Python idiom `rsi14(closes) or 50`, so the effective value used
downstream is `50`. -/
theorem rsi14_short_returns_none (vals : List ℚ) (h : vals.length < 15) :
    rsi14 vals = none ∧ pyOr (rsi14 vals) 50 = 50 := by
  have h1 : rsi14 vals = none := by simp [rsi14, h]
  exact ⟨h1, by rw [h1]; rfl⟩

/-- C5 witness: the amended claim at the concrete 14-element series. -/
theorem rsi14_short_returns_none_witness :
    rsi14 (List.replicate 14 (2 : ℚ)) = none ∧
    pyOr (rsi14 (List.replicate 14 (2 : ℚ))) 50 = 50 :=
  rsi14_short_returns_none (List.replicate 14 (2 : ℚ)) (by decide)

/-- C9: `pct` is total (never raises): it returns `None` exactly when the
base `b` is zero, and otherwise returns `(a - b) / b * 100`. -/
theorem pct_total_spec (a b : ℚ) :
    (pct a b = none ↔ b = 0) ∧
    (∀ r, pct a b = some r → r = (a - b) / b * 100) := by
  unfold pct
  constructor
  · split <;> simp_all
  · intro r hr
    split at hr <;> simp_all

/-- C9 witness: the specification at the concrete pair `(3, 2)`. -/
theorem pct_total_spec_witness :
    (pct 3 2 = none ↔ (2 : ℚ) = 0) ∧
    (∀ r, pct 3 2 = some r → r = ((3 : ℚ) - 2) / 2 * 100) :=
  pct_total_spec 3 2

/-- C8: the indicator functions are pure and deterministic; their output
depends only on the contents of the input series (two elementwise-equal
series give identical `rsi14` and `sma` results), and calls do not alter
the series, which the embedding represents by `rsi14`/`sma` being plain
functions of the list. -/
theorem indicators_deterministic (v w : List ℚ)
    (h : ∀ i, v.get? i = w.get? i) :
    rsi14 v = rsi14 w ∧ ∀ n, sma v n = sma w n := by
  have hvw : v = w := List.ext_get? h
  subst hvw
  exact ⟨rfl, fun _ => rfl⟩

/-- C8 witness: determinism at a concrete series. -/
theorem indicators_deterministic_witness :
    rsi14 [(1 : ℚ), 2, 3] = rsi14 [(1 : ℚ), 2, 3] ∧
    ∀ n, sma [(1 : ℚ), 2, 3] n = sma [(1 : ℚ), 2, 3] n :=
  indicators_deterministic [(1 : ℚ), 2, 3] [(1 : ℚ), 2, 3] (fun _ => rfl)

/-- The three bias labels produced by the classification expression of
`cmd_picks` in `src/main.py` (the strings `Bullish`, `Bearish`,
`Neutral`). -/
inductive Bias where
  | bullish
  | bearish
  | neutral
deriving DecidableEq, Repr

/-- The bias classification of `cmd_picks`:
`"Bullish" if closes[-1] > (sm50 or closes[-1]) and (rsi or 50) >= 55 else`
`"Bearish" if closes[-1] < (sm50 or closes[-1]) and (rsi or 50) <= 45 else`
`"Neutral"`, with `sm50 = sma(closes, 50)` and `rsi = rsi14(closes)` and
Python `or` falling back on `None`/`0.0`. -/
def biasOf (closes : List ℚ) : Bias :=
  let c := closes.getLastD 0
  let e50 := pyOr (sma closes 50) c
  let er := pyOr (rsi14 closes) 50
  if e50 < c ∧ 55 ≤ er then .bullish
  else if c < e50 ∧ er ≤ 45 then .bearish
  else .neutral

theorem gainPart_mono {x y : ℚ} (h : x ≤ y) : gainPart x ≤ gainPart y := by
  unfold gainPart
  split <;> split <;> try linarith

theorem lossPart_anti {x y : ℚ} (h : x ≤ y) : lossPart y ≤ lossPart x := by
  unfold lossPart
  split <;> split <;> try linarith

theorem changes_concat (l : List ℚ) (hl : l ≠ []) (c : ℚ) :
    changes (l ++ [c]) = changes l ++ [c - l.getLast hl] := by
  induction l with
  | nil => exact absurd rfl hl
  | cons a rest ih =>
    cases rest with
    | nil => simp [changes]
    | cons b rest2 =>
      have hne : b :: rest2 ≠ [] := by simp
      have ih2 := ih hne
      simp only [List.cons_append] at ih2 ⊢
      rw [show changes (a :: (b :: (rest2 ++ [c]))) =
            (b - a) :: changes (b :: (rest2 ++ [c])) from rfl]
      rw [ih2]
      rw [show changes (a :: b :: rest2) = (b - a) :: changes (b :: rest2) from rfl]
      simp [List.getLast_cons]

theorem gainsOf_concat (chgs : List ℚ) (d : ℚ) :
    gainsOf (chgs ++ [d]) = gainsOf chgs + gainPart d := by
  unfold gainsOf
  simp

theorem lossesOf_concat (chgs : List ℚ) (d : ℚ) :
    lossesOf (chgs ++ [d]) = lossesOf chgs + lossPart d := by
  unfold lossesOf
  simp

theorem rsiFrom_eq_ratio (g l : ℚ) (hg : 0 ≤ g) (hl : 0 < l) :
    rsiFrom g l = 100 * g / (g + l) := by
  unfold rsiFrom
  have hlne : l ≠ 0 := ne_of_gt hl
  simp only [hlne, if_false]
  have hq : (g / 14) / (l / 14) = g / l := by field_simp
  rw [hq]
  have hgl : 0 < g + l := by linarith
  field_simp
  ring

theorem rsiFrom_mono {g₁ g₂ l₁ l₂ : ℚ} (hg1 : 0 ≤ g₁) (hl2 : 0 ≤ l₂)
    (hg : g₁ ≤ g₂) (hl : l₂ ≤ l₁) :
    rsiFrom g₁ l₁ ≤ rsiFrom g₂ l₂ := by
  have hg2 : 0 ≤ g₂ := le_trans hg1 hg
  have hl1 : 0 ≤ l₁ := le_trans hl2 hl
  rcases eq_or_lt_of_le hl2 with h2 | h2
  · have : rsiFrom g₂ l₂ = 100 := by
      unfold rsiFrom; simp [← h2]
    rw [this]
    exact rsiFrom_le_100 _ _ hg1 hl1
  · have hl1pos : 0 < l₁ := lt_of_lt_of_le h2 hl
    rw [rsiFrom_eq_ratio _ _ hg1 hl1pos, rsiFrom_eq_ratio _ _ hg2 h2]
    have hd1 : 0 < g₁ + l₁ := by linarith
    have hd2 : 0 < g₂ + l₂ := by linarith
    rw [div_le_div_iff₀ hd1 hd2]
    nlinarith

/-- Monotonicity of `rsi14` in the last close: with the earlier history
fixed, raising the final close never lowers the RSI. -/
theorem rsi14_last_mono (pre : List ℚ) (c₁ c₂ : ℚ)
    (hpre : 14 ≤ pre.length) (hc : c₁ ≤ c₂) :
    ∃ r₁ r₂, rsi14 (pre ++ [c₁]) = some r₁ ∧ rsi14 (pre ++ [c₂]) = some r₂ ∧
      r₁ ≤ r₂ := by
  have hlen : ∀ c : ℚ, (pre ++ [c]).length = pre.length + 1 := by simp
  have hnot : ∀ c : ℚ, ¬ (pre ++ [c]).length < 15 := by
    intro c; rw [hlen]; omega
  have hdropix : ∀ c : ℚ, (pre ++ [c]).length - 15 = pre.length - 14 := by
    intro c; rw [hlen]; omega
  have hdrople : pre.length - 14 ≤ pre.length := by omega
  have hwin : ∀ c : ℚ, (pre ++ [c]).drop ((pre ++ [c]).length - 15) =
      pre.drop (pre.length - 14) ++ [c] := by
    intro c
    rw [hdropix, List.drop_append_of_le_length hdrople]
  set w := pre.drop (pre.length - 14) with hw
  have hwlen : w.length = 14 := by
    rw [hw, List.length_drop]; omega
  have hwne : w ≠ [] := by
    intro hnil; rw [hnil] at hwlen; simp at hwlen
  set a := w.getLast hwne with ha
  have hch : ∀ c : ℚ, changes (w ++ [c]) = changes w ++ [c - a] :=
    fun c => changes_concat w hwne c
  have hval : ∀ c : ℚ, rsi14 (pre ++ [c]) =
      some (rsiFrom (gainsOf (changes w) + gainPart (c - a))
        (lossesOf (changes w) + lossPart (c - a))) := by
    intro c
    unfold rsi14
    simp only [hnot c, if_false]
    rw [hwin c, hch c, gainsOf_concat, lossesOf_concat]
  refine ⟨_, _, hval c₁, hval c₂, ?_⟩
  refine rsiFrom_mono ?_ ?_ ?_ ?_
  · exact add_nonneg (gainsOf_nonneg _) (gainPart_nonneg _)
  · exact add_nonneg (lossesOf_nonneg _) (lossPart_nonneg _)
  · have := gainPart_mono (show c₁ - a ≤ c₂ - a by linarith)
    linarith
  · have := lossPart_anti (show c₁ - a ≤ c₂ - a by linarith)
    linarith

/-- C6: with the price history fixed, increasing the latest close never
moves the classification of `cmd_picks` from the bullish label to the
bearish label. -/
theorem bias_close_mono (pre : List ℚ) (c₁ c₂ : ℚ)
    (hlen : 49 ≤ pre.length) (hc : c₁ ≤ c₂)
    (hb : biasOf (pre ++ [c₁]) = Bias.bullish) :
    biasOf (pre ++ [c₂]) ≠ Bias.bearish := by
  have hpre : 14 ≤ pre.length := by omega
  obtain ⟨r₁, r₂, hr₁, hr₂, hmono⟩ := rsi14_last_mono pre c₁ c₂ hpre hc
  have hlast : ∀ c : ℚ, (pre ++ [c]).getLastD 0 = c := by
    intro c; exact List.getLastD_concat _ _ _
  have h55 : 55 ≤ r₁ := by
    unfold biasOf at hb
    simp only [hr₁, hlast c₁] at hb
    by_cases hcond : pyOr (sma (pre ++ [c₁]) 50) c₁ < c₁ ∧
        55 ≤ pyOr (some r₁) 50
    · have h2 : (55 : ℚ) ≤ if r₁ = 0 then 50 else r₁ := hcond.2
      by_cases h0 : r₁ = 0
      · rw [if_pos h0] at h2; norm_num at h2
      · rw [if_neg h0] at h2; exact h2
    · simp only [if_neg hcond] at hb
      split at hb <;> simp_all
  have hr₂55 : 55 ≤ r₂ := le_trans h55 hmono
  have hr₂ne : r₂ ≠ 0 := by intro h; rw [h] at hr₂55; norm_num at hr₂55
  have her : pyOr (some r₂) 50 = r₂ := by
    unfold pyOr; simp [hr₂ne]
  have hnb : ¬ (c₂ < pyOr (sma (pre ++ [c₂]) 50) c₂ ∧ r₂ ≤ 45) := by
    rintro ⟨-, h45⟩; linarith
  unfold biasOf
  simp only [hr₂, hlast c₂, her]
  by_cases hA : pyOr (sma (pre ++ [c₂]) 50) c₂ < c₂ ∧ (55 : ℚ) ≤ r₂
  · rw [if_pos hA]; simp
  · rw [if_neg hA, if_neg hnb]; simp

/-- C6 witness: a flat 49-close history is classified bullish when the
latest close is 2, and is not bearish after raising that close to 3. -/
theorem bias_close_mono_witness :
    biasOf (List.replicate 49 (1 : ℚ) ++ [3]) ≠ Bias.bearish :=
  bias_close_mono (List.replicate 49 (1 : ℚ)) 2 3
    (by simp) (by norm_num)
    (by norm_num [biasOf, sma, rsi14, changes, gainsOf, lossesOf, gainPart,
      lossPart, rsiFrom, pyOr, List.replicate])

/-- The trend arrow of `cmd_picks`: up when both SMAs are truthy (not
`None`, not `0.0`) and `sm20 > sm50`, down in the mirrored case, flat
otherwise, following Python truthiness of
`sm20 and sm50 and sm20 > sm50`. -/
inductive Trend where
  | up
  | down
  | flat
deriving DecidableEq, Repr

/-- The trend computation of `cmd_picks` over `sma(closes, 20)` and
`sma(closes, 50)`. -/
def trendOf (closes : List ℚ) : Trend :=
  match sma closes 20, sma closes 50 with
  | some a, some b =>
    if a ≠ 0 ∧ b ≠ 0 ∧ b < a then .up
    else if a ≠ 0 ∧ b ≠ 0 ∧ a < b then .down
    else .flat
  | _, _ => .flat

/-- A quote dictionary entry as read by `cmd_picks` via `q.get(...)`:
every field may be absent (`None`). -/
structure Quote where
  regularMarketPrice : Option ℚ
  regularMarketChangePercent : Option ℚ
  regularMarketVolume : Option ℤ
  averageDailyVolume3Month : Option ℤ
  marketCap : Option ℚ
  trailingPE : Option ℚ
deriving DecidableEq, Repr

/-- One output line of the `/picks` reply: either the per-symbol
`data not ready` warning, or the full detail line. -/
inductive PickRecord where
  | notReady (sym : String)
  | detail (sym : String) (price chg : Option ℚ) (trend : Trend)
      (bias : Bias) (rsi : Option ℚ) (sm20 sm50 : Option ℚ)
      (vol avgVol : ℤ) (mcap pe : Option ℚ)
deriving DecidableEq, Repr

/-- The per-symbol body of the `cmd_picks` loop. A missing quote or a
chart shorter than 50 closes appends the warning line and continues.
Otherwise the detail f-string is built; its `\x7bvol:,\x7d` and
`\x7bavg_vol:,\x7d` conversions raise `TypeError` when the volume fields
are `None` (unlike `fmt_num`/`fmt_pct`/`market_cap_str`, which guard
against `None`), modelled as the `error` outcome. -/
def pickRecord (quotes : String → Option Quote) (chart : String → List ℚ)
    (sym : String) : Except Unit PickRecord :=
  match quotes sym with
  | none => .ok (.notReady sym)
  | some q =>
    let closes := chart sym
    if closes.length < 50 then .ok (.notReady sym)
    else
      match q.regularMarketVolume, q.averageDailyVolume3Month with
      | some v, some av =>
          .ok (.detail sym q.regularMarketPrice q.regularMarketChangePercent
            (trendOf closes) (biasOf closes) (rsi14 closes) (sma closes 20)
            (sma closes 50) v av q.marketCap q.trailingPE)
      | _, _ => .error ()

/-- The `for sym in picks` loop of `cmd_picks`: records accumulate in
order, and an uncaught exception in any iteration aborts the whole reply
(`update.message.reply_text` is only reached after the loop). -/
def cmd_picks_records (quotes : String → Option Quote)
    (chart : String → List ℚ) : List String → Except Unit (List PickRecord)
  | [] => .ok []
  | s :: rest =>
    match pickRecord quotes chart s with
    | .error e => .error e
    | .ok r =>
      match cmd_picks_records quotes chart rest with
      | .error e => .error e
      | .ok rs => .ok (r :: rs)

/-- A quote whose volume fields are absent, as Yahoo returns for some
instruments and sessions; all other fields present or `None`-guarded. -/
def qMissingVol : Quote :=
  { regularMarketPrice := some 1
    regularMarketChangePercent := some 0
    regularMarketVolume := none
    averageDailyVolume3Month := some 1000
    marketCap := none
    trailingPE := none }

/-- Concrete quote table for the failing batch: AAPL has a quote (with
`regularMarketVolume = None`), MSFT has none. -/
def demoQuotes : String → Option Quote :=
  fun s => if s = "AAPL" then some qMissingVol else none

/-- Concrete chart table: AAPL has 50 closes, MSFT none. -/
def demoChart : String → List ℚ :=
  fun s => if s = "AAPL" then List.replicate 50 1 else []

/-- C2: evaluating the batch at the failing input. A single symbol whose
quote lacks `regularMarketVolume` makes the whole `/picks` evaluation
raise (the `TypeError` from `\x7bvol:,\x7d`), so no record is emitted for
any symbol, including the remaining symbol MSFT. -/
theorem cmd_picks_aborts_on_missing_volume :
    cmd_picks_records demoQuotes demoChart ["AAPL", "MSFT"] = .error () ∧
    ∀ rs, cmd_picks_records demoQuotes demoChart ["AAPL", "MSFT"] ≠ .ok rs := by
  refine ⟨rfl, ?_⟩
  intro rs h
  rw [show cmd_picks_records demoQuotes demoChart ["AAPL", "MSFT"] =
    .error () from rfl] at h
  exact Except.noConfusion h

/-- A parsed `chart.result[0]` payload: parallel `timestamp` and
`indicators.quote[0].close` arrays, closes possibly `null`. -/
structure SeriesPayload where
  timestamp : List ℤ
  close : List (Option ℚ)
deriving DecidableEq, Repr

/-- The upstream answer consumed by one `yf_chart` invocation: either the
network/JSON raised (the `except` path) or an HTTP response with a status
code and the parsed `chart.result` array. -/
inductive UpstreamReply where
  | failure
  | http (status : ℕ) (result : List SeriesPayload)
deriving DecidableEq, Repr

/-- The `for t, c in zip(ts, closes): if c is not None` filter loop of
`yf_chart`. -/
def filterPairs : List (ℤ × Option ℚ) → List ℤ × List ℚ
  | [] => ([], [])
  | (t, some c) :: rest =>
    let p := filterPairs rest
    (t :: p.1, c :: p.2)
  | (_, none) :: rest => filterPairs rest

/-- `yf_chart` from `src/main.py`, as a function of the single upstream
reply it consumes: any non-200 status returns `([], [])` at once (there
is no retry loop and no module-level cache in the function), an empty
`chart.result` or an exception also returns `([], [])`, and a 200 reply
is parsed through the `zip`/`None`-filter loop. -/
def yf_chart : UpstreamReply → List ℤ × List ℚ
  | .failure => ([], [])
  | .http status result =>
    if status ≠ 200 then ([], [])
    else
      match result with
      | [] => ([], [])
      | series :: _ => filterPairs (series.timestamp.zip series.close)

/-- `k` successive `yf_chart` invocations against the stream of upstream
replies (reply `i` answers call `i`). The second component counts the
upstream HTTP calls issued: the body of `yf_chart` unconditionally opens
`http_session().get(url)`, so each invocation issues exactly one. -/
def yf_chart_run (replies : List UpstreamReply) (k : ℕ) :
    List (List ℤ × List ℚ) × ℕ :=
  ((List.range k).map (fun i => yf_chart (replies.getD i .failure)), k)

/-- A successful reply carrying the one-point series `([0], [1])`. -/
def goodReply : UpstreamReply := .http 200 [⟨[0], [some 1]⟩]

/-- A throttled reply (HTTP 429). -/
def throttledReply : UpstreamReply := .http 429 []

/-- C3 counterexample: after a successful fetch of the series
`([0], [1])`, a 429 on the next invocation yields `([], [])` — not the
previously fetched series, and with no second (retry) upstream attempt
inside the invocation. -/
theorem yf_chart_no_stale_fallback :
    (yf_chart_run [goodReply, throttledReply] 2).1 =
      [([0], [1]), ([], [])] ∧
    (yf_chart_run [goodReply, throttledReply] 2).1 ≠
      [([0], [1]), ([0], [1])] := by
  constructor <;> decide

/-- C3 amended: on any non-200 status (429 and 5xx included) `yf_chart`
returns the empty series `([], [])` immediately; there is no retry,
no backoff, and no cached fallback, and every invocation issues exactly
one upstream call. -/
theorem yf_chart_non_200_empty (status : ℕ) (result : List SeriesPayload)
    (h : status ≠ 200) :
    yf_chart (.http status result) = ([], []) ∧
    ∀ replies k, (yf_chart_run replies k).2 = k := by
  refine ⟨?_, fun _ _ => rfl⟩
  simp only [yf_chart]
  rw [if_pos h]

/-- C3 witness: the amended claim at status 429. -/
theorem yf_chart_non_200_empty_witness :
    yf_chart (.http 429 []) = ([], []) ∧
    ∀ replies k, (yf_chart_run replies k).2 = k :=
  yf_chart_non_200_empty 429 [] (by decide)

/-- C4 counterexample: two consecutive `yf_chart` calls for the same data
issue two upstream calls, not one — the function keeps no cache. -/
theorem yf_chart_two_calls_counted :
    (yf_chart_run [goodReply, goodReply] 2).2 = 2 ∧ (2 : ℕ) ≠ 1 := by
  constructor <;> decide

/-- C4 amended: two consecutive `yf_chart` invocations answered by
identical upstream replies return identical data, but each triggers its
own upstream call (two in total); the sameness of the results comes from
determinism, not from a cache. -/
theorem yf_chart_consecutive (r : UpstreamReply) :
    (yf_chart_run [r, r] 2).1 = [yf_chart r, yf_chart r] ∧
    (yf_chart_run [r, r] 2).2 = 2 := by
  constructor
  · simp [yf_chart_run, List.range_succ]
  · rfl

/-- C4 witness: the amended claim at the concrete successful reply. -/
theorem yf_chart_consecutive_witness :
    (yf_chart_run [goodReply, goodReply] 2).1 =
      [yf_chart goodReply, yf_chart goodReply] ∧
    (yf_chart_run [goodReply, goodReply] 2).2 = 2 :=
  yf_chart_consecutive goodReply

/-- Modelled from the spec: the `IndicatorSnapshot` of §3 consumed by the
scoring engine of §4.4; the scoring engine itself is not part of
`src/main.py`. Fields are the point-in-time indicator values. -/
structure Snapshot where
  price : ℚ
  ema20 : ℚ
  ema50 : ℚ
  rsi14 : ℚ
  macdLine : ℚ
  macdSignal : ℚ
  histogram : ℚ
  histogramSlope : ℚ
deriving DecidableEq, Repr

/-- Modelled from the spec: the ±1-point accumulation rules of the
scoring engine (§4.4), absent from `src/main.py`: `+1` for each of
`price > ema50`, `ema20 > ema50`, `price > ema20`,
`macdLine > macdSignal`, `histogram > 0 ∧ histogramSlope > 0`,
`45 ≤ rsi14 ≤ 60`; `−1` for `rsi14 ≥ 70` and `−1` for `rsi14 ≤ 30`. -/
def score (s : Snapshot) : ℤ :=
  (if s.ema50 < s.price then 1 else 0) +
  (if s.ema50 < s.ema20 then 1 else 0) +
  (if s.ema20 < s.price then 1 else 0) +
  (if s.macdSignal < s.macdLine then 1 else 0) +
  (if 0 < s.histogram ∧ 0 < s.histogramSlope then 1 else 0) +
  (if 45 ≤ s.rsi14 ∧ s.rsi14 ≤ 60 then 1 else 0) -
  (if 70 ≤ s.rsi14 then 1 else 0) -
  (if s.rsi14 ≤ 30 then 1 else 0)

/-- A snapshot satisfying all six `+1` rules and neither penalty. -/
def maxSnapshot : Snapshot :=
  { price := 3, ema20 := 2, ema50 := 1, rsi14 := 50, macdLine := 1,
    macdSignal := 0, histogram := 1, histogramSlope := 1 }

/-- C7 counterexample: a snapshot with full trend structure, momentum and
a healthy RSI accumulates 6 points, outside the claimed interval
`[-2, 5]`. -/
theorem score_exceeds_claimed_bound :
    score maxSnapshot = 6 ∧ ¬ score maxSnapshot ≤ 5 := by
  constructor <;> decide

/-- C7 amended: the accumulated score is an integer in `[-2, 6]` for
every snapshot. -/
theorem score_bounds (s : Snapshot) : -2 ≤ score s ∧ score s ≤ 6 := by
  unfold score
  split_ifs <;> decide

/-- C7 witness: the bounds at a concrete snapshot. -/
theorem score_bounds_witness :
    -2 ≤ score maxSnapshot ∧ score maxSnapshot ≤ 6 :=
  score_bounds maxSnapshot

/- Python strings are modelled as `List Char`; `str.upper()` by
`Char.toUpper` per character (exact for the ASCII symbols the bot
handles), `str.split()` by splitting on whitespace runs, `str.strip()` by
trimming whitespace at both ends. -/

theorem toNat_ofNat_valid (n : ℕ) (h : n.isValidChar) :
    (Char.ofNat n).toNat = n := by
  rw [Char.ofNat, dif_pos h]
  rfl

theorem char_eq_of_toNat_eq {c d : Char} (h : c.toNat = d.toNat) : c = d := by
  apply Char.ext
  exact UInt32.toNat.inj h

theorem toUpper_eq_self {x : Char} (h : ¬(97 ≤ x.toNat ∧ x.toNat ≤ 122)) :
    Char.toUpper x = x := by
  unfold Char.toUpper
  show (if x.toNat ≥ 97 ∧ x.toNat ≤ 122 then Char.ofNat (x.toNat - 32) else x) = x
  rw [if_neg h]

theorem toUpper_eq_ofNat {x : Char} (h : 97 ≤ x.toNat ∧ x.toNat ≤ 122) :
    Char.toUpper x = Char.ofNat (x.toNat - 32) := by
  unfold Char.toUpper
  show (if x.toNat ≥ 97 ∧ x.toNat ≤ 122 then Char.ofNat (x.toNat - 32) else x) =
    Char.ofNat (x.toNat - 32)
  rw [if_pos h]

theorem toUpper_split (c : Char) :
    (Char.toUpper c = c ∧ ¬(97 ≤ c.toNat ∧ c.toNat ≤ 122)) ∨
    (97 ≤ c.toNat ∧ c.toNat ≤ 122 ∧ (Char.toUpper c).toNat = c.toNat - 32) := by
  by_cases h : 97 ≤ c.toNat ∧ c.toNat ≤ 122
  · refine Or.inr ⟨h.1, h.2, ?_⟩
    rw [toUpper_eq_ofNat h]
    exact toNat_ofNat_valid _ (Or.inl (by omega))
  · exact Or.inl ⟨toUpper_eq_self h, h⟩

theorem ws_iff (c : Char) :
    c.isWhitespace = true ↔
      (c.toNat = 32 ∨ c.toNat = 9 ∨ c.toNat = 13 ∨ c.toNat = 10) := by
  unfold Char.isWhitespace
  simp only [Bool.or_eq_true, decide_eq_true_eq]
  constructor
  · rintro (((rfl | rfl) | rfl) | rfl)
    · exact Or.inl rfl
    · exact Or.inr (Or.inl rfl)
    · exact Or.inr (Or.inr (Or.inl rfl))
    · exact Or.inr (Or.inr (Or.inr rfl))
  · rintro (h | h | h | h)
    · exact Or.inl (Or.inl (Or.inl (char_eq_of_toNat_eq (by rw [h]; rfl))))
    · exact Or.inl (Or.inl (Or.inr (char_eq_of_toNat_eq (by rw [h]; rfl))))
    · exact Or.inl (Or.inr (char_eq_of_toNat_eq (by rw [h]; rfl)))
    · exact Or.inr (char_eq_of_toNat_eq (by rw [h]; rfl))

theorem comma_iff (c : Char) : c = ',' ↔ c.toNat = 44 := by
  constructor
  · rintro rfl; rfl
  · intro h; exact char_eq_of_toNat_eq (by rw [h]; rfl)

theorem toUpper_idem (c : Char) :
    Char.toUpper (Char.toUpper c) = Char.toUpper c := by
  rcases toUpper_split c with ⟨he, hr⟩ | ⟨h1, h2, h3⟩
  · rw [he, toUpper_eq_self hr]
  · apply toUpper_eq_self
    omega

theorem toUpper_not_comma {c : Char} (h : c ≠ ',') : Char.toUpper c ≠ ',' := by
  rcases toUpper_split c with ⟨he, _⟩ | ⟨h1, h2, h3⟩
  · rw [he]; exact h
  · intro hcon
    rw [comma_iff] at hcon
    omega

theorem toUpper_not_ws {c : Char} (h : c.isWhitespace = false) :
    (Char.toUpper c).isWhitespace = false := by
  rcases toUpper_split c with ⟨he, _⟩ | ⟨h1, h2, h3⟩
  · rw [he]; exact h
  · by_contra hcon
    rw [Bool.not_eq_false, ws_iff] at hcon
    omega

/-- The `.replace(",", " ")` step of `parse_symbols_from_args`. -/
def replaceCommas (s : List Char) : List Char :=
  s.map (fun c => if c = ',' then ' ' else c)

/-- Accumulator-based splitting on whitespace runs: the body of Python's
argument-free `str.split()`, which discards empty fields. -/
def splitWSAux : List Char → List Char → List (List Char)
  | [], acc => if acc = [] then [] else [acc.reverse]
  | ch :: rest, acc =>
    if ch.isWhitespace then
      if acc = [] then splitWSAux rest []
      else acc.reverse :: splitWSAux rest []
    else splitWSAux rest (ch :: acc)

/-- Python `str.split()` with no separator. -/
def splitWS (s : List Char) : List (List Char) := splitWSAux s []

/-- Python `str.strip()`: drop whitespace from both ends. -/
def pyStrip (s : List Char) : List Char :=
  ((s.dropWhile Char.isWhitespace).reverse.dropWhile Char.isWhitespace).reverse

/-- Python `str.upper()`, per character. -/
def pyUpper (s : List Char) : List Char := s.map Char.toUpper

/-- `parse_symbols_from_args` from `src/main.py`: empty argument lists map
to `[]`; otherwise the arguments are joined with spaces, commas replaced
by spaces, split on whitespace, the non-blank fields stripped and
uppercased, and the first 12 kept. -/
def parse_symbols_from_args (args : List (List Char)) : List (List Char) :=
  if args = [] then []
  else
    let joined := replaceCommas (List.intercalate [' '] args)
    (((splitWS joined).filter (fun s => !(pyStrip s).isEmpty)).map
      (fun s => pyUpper (pyStrip s))).take 12

theorem splitWSAux_spec (s : List Char) :
    ∀ acc, (∀ c ∈ acc, c.isWhitespace = false) →
      ∀ t ∈ splitWSAux s acc,
        t ≠ [] ∧ ∀ c ∈ t, c.isWhitespace = false ∧ (c ∈ s ∨ c ∈ acc) := by
  induction s with
  | nil =>
    intro acc hacc t ht
    unfold splitWSAux at ht
    by_cases hnil : acc = []
    · rw [if_pos hnil] at ht
      exact absurd ht (List.not_mem_nil t)
    · rw [if_neg hnil] at ht
      rcases List.mem_singleton.mp ht with rfl
      refine ⟨by simpa using hnil, ?_⟩
      intro c hc
      rw [List.mem_reverse] at hc
      exact ⟨hacc c hc, Or.inr hc⟩
  | cons ch rest ih =>
    intro acc hacc t ht
    unfold splitWSAux at ht
    by_cases hw : ch.isWhitespace
    · rw [if_pos hw] at ht
      by_cases hnil : acc = []
      · rw [if_pos hnil] at ht
        obtain ⟨hne, hchar⟩ := ih [] (by simp) t ht
        refine ⟨hne, ?_⟩
        intro c hc
        obtain ⟨hws, hmem⟩ := hchar c hc
        rcases hmem with hmem | hmem
        · exact ⟨hws, Or.inl (List.mem_cons_of_mem ch hmem)⟩
        · exact absurd hmem (List.not_mem_nil c)
      · rw [if_neg hnil] at ht
        rcases List.mem_cons.mp ht with rfl | ht2
        · refine ⟨by simpa using hnil, ?_⟩
          intro c hc
          rw [List.mem_reverse] at hc
          exact ⟨hacc c hc, Or.inr hc⟩
        · obtain ⟨hne, hchar⟩ := ih [] (by simp) t ht2
          refine ⟨hne, ?_⟩
          intro c hc
          obtain ⟨hws, hmem⟩ := hchar c hc
          rcases hmem with hmem | hmem
          · exact ⟨hws, Or.inl (List.mem_cons_of_mem ch hmem)⟩
          · exact absurd hmem (List.not_mem_nil c)
    · rw [if_neg hw] at ht
      have hacc2 : ∀ c ∈ ch :: acc, c.isWhitespace = false := by
        intro c hc
        rcases List.mem_cons.mp hc with rfl | hc2
        · exact Bool.not_eq_true _ ▸ (by simpa using hw)
        · exact hacc c hc2
      obtain ⟨hne, hchar⟩ := ih (ch :: acc) hacc2 t ht
      refine ⟨hne, ?_⟩
      intro c hc
      obtain ⟨hws, hmem⟩ := hchar c hc
      rcases hmem with hmem | hmem
      · exact ⟨hws, Or.inl (List.mem_cons_of_mem ch hmem)⟩
      · rcases List.mem_cons.mp hmem with rfl | hc2
        · exact ⟨hws, Or.inl (List.mem_cons_self c rest)⟩
        · exact ⟨hws, Or.inr hc2⟩

theorem replaceCommas_no_comma (s : List Char) :
    ∀ c ∈ replaceCommas s, c ≠ ',' := by
  intro c hc
  unfold replaceCommas at hc
  obtain ⟨d, _, rfl⟩ := List.mem_map.mp hc
  by_cases hd : d = ','
  · rw [if_pos hd]
    intro hcon
    exact absurd (comma_iff _ |>.mp hcon) (by decide)
  · rw [if_neg hd]
    exact hd

theorem dropWhile_all_false {p : Char → Bool} (l : List Char)
    (h : ∀ c ∈ l, p c = false) : l.dropWhile p = l := by
  cases l with
  | nil => rfl
  | cons a rest =>
    rw [List.dropWhile_cons, if_neg]
    rw [h a (List.mem_cons_self a rest)]
    simp

theorem pyStrip_of_no_ws (t : List Char)
    (h : ∀ c ∈ t, c.isWhitespace = false) : pyStrip t = t := by
  unfold pyStrip
  rw [dropWhile_all_false t h]
  rw [dropWhile_all_false t.reverse (by intro c hc; exact h c (List.mem_reverse.mp hc))]
  exact List.reverse_reverse t

/-- C10: `parse_symbols_from_args` returns at most 12 symbols; each is
non-empty and contains neither commas nor whitespace; every character is
a fixed point of upper-casing (the string is fully uppercased); and the
empty argument list yields the empty list. -/
theorem parse_symbols_spec (args : List (List Char)) :
    (parse_symbols_from_args args).length ≤ 12 ∧
    (∀ s ∈ parse_symbols_from_args args, s ≠ [] ∧
      ∀ c ∈ s, c ≠ ',' ∧ c.isWhitespace = false ∧ Char.toUpper c = c) ∧
    parse_symbols_from_args [] = [] := by
  refine ⟨?_, ?_, rfl⟩
  · by_cases hargs : args = []
    · simp [parse_symbols_from_args, hargs]
    · unfold parse_symbols_from_args
      rw [if_neg hargs]
      exact List.length_take_le _ _
  · intro s hs
    by_cases hargs : args = []
    · rw [hargs] at hs
      exact absurd hs (by simp [parse_symbols_from_args])
    · unfold parse_symbols_from_args at hs
      rw [if_neg hargs] at hs
      have hs2 := List.mem_of_mem_take hs
      obtain ⟨t, htf, rfl⟩ := List.mem_map.mp hs2
      have htmem := List.mem_of_mem_filter htf
      obtain ⟨htne, htchar⟩ :=
        splitWSAux_spec _ [] (by simp) t htmem
      have htws : ∀ c ∈ t, c.isWhitespace = false :=
        fun c hc => (htchar c hc).1
      have htstrip : pyStrip t = t := pyStrip_of_no_ws t htws
      rw [htstrip]
      refine ⟨by simpa [pyUpper] using htne, ?_⟩
      intro c hc
      unfold pyUpper at hc
      obtain ⟨d, hd, rfl⟩ := List.mem_map.mp hc
      have hdws : d.isWhitespace = false := (htchar d hd).1
      have hdmem : d ∈ replaceCommas (List.intercalate [' '] args) := by
        rcases (htchar d hd).2 with hmem | hmem
        · exact hmem
        · exact absurd hmem (List.not_mem_nil d)
      have hdcomma : d ≠ ',' := replaceCommas_no_comma _ d hdmem
      exact ⟨toUpper_not_comma hdcomma, toUpper_not_ws hdws, toUpper_idem d⟩

/-- C10 witness: the specification applied at the concrete argument list
`["aapl,msft", " tsla "]`. -/
theorem parse_symbols_spec_witness :
    (parse_symbols_from_args [[Char.ofNat 97], [Char.ofNat 44]]).length ≤ 12 ∧
    (∀ s ∈ parse_symbols_from_args [[Char.ofNat 97], [Char.ofNat 44]], s ≠ [] ∧
      ∀ c ∈ s, c ≠ ',' ∧ c.isWhitespace = false ∧ Char.toUpper c = c) ∧
    parse_symbols_from_args [] = [] :=
  parse_symbols_spec [[Char.ofNat 97], [Char.ofNat 44]]

end StockBot
